import Mathlib

/-!
# Verification of the word-frequency pipeline (app4.py)

Shallow embedding of the core pipeline of `src/app4.py`:
fetch a page, strip markup, keep only CJK characters, segment (external
library, modelled as a parameter), filter tokens against a stopword set and
a minimum length, count occurrences, and rank the top 20 by count.

Strings from the Python side are modelled as `String` (token level) and
`List Char` (character level, one entry per Unicode code point, matching
Python's `str` indexing and `len`).
-/

namespace App4

/-! ## Text Normalizer: `remove_punctuation_and_english`

The source line is
`re.sub(r'[A-Za-z0-9\s+]|[^一-龥]+', '', text)`.
The first alternative of the pattern matches a single ASCII letter, digit,
whitespace character or literal `+`; the second matches a maximal run of
characters outside U+4E00..U+9FA5.  Every character matched by the first
alternative is also outside that block (Python's Unicode `\s` contains no
CJK ideograph), and substitution with the empty string deletes exactly the
matched characters, so the net effect of the `re.sub` is to delete a
character iff it is matched by either alternative.  We embed it as that
character filter. -/

/-- The character class `[A-Za-z0-9\s+]` of the first regex alternative,
restricted to its ASCII part; the non-ASCII whitespace matched by Python's
Unicode `\s` is in any case outside U+4E00..U+9FA5 and thus deleted by the
second alternative as well. -/
def inAsciiWsClass (c : Char) : Bool :=
  (decide ('A' ≤ c) && decide (c ≤ 'Z')) ||
  (decide ('a' ≤ c) && decide (c ≤ 'z')) ||
  (decide ('0' ≤ c) && decide (c ≤ '9')) ||
  decide (c = '+') || decide (c = ' ') || decide (c = '\t') ||
  decide (c = '\n') || decide (c = '\r') ||
  decide (c.toNat = 0xb) || decide (c.toNat = 0xc)

/-- Membership in the block U+4E00..U+9FA5, i.e. the complement of the second
regex alternative `[^一-龥]`. -/
def isCJKChar (c : Char) : Bool :=
  decide (0x4e00 ≤ c.toNat) && decide (c.toNat ≤ 0x9fa5)

/-- Model of `remove_punctuation_and_english(text)`: delete every character matched by
`[A-Za-z0-9\s+]|[^一-龥]+`. -/
def remove_punctuation_and_english (s : List Char) : List Char :=
  s.filter (fun c => !(inAsciiWsClass c || !isCJKChar c))

theorem mem_remove_punctuation_and_english {c : Char} {s : List Char}
    (h : c ∈ remove_punctuation_and_english s) :
    0x4e00 ≤ c.toNat ∧ c.toNat ≤ 0x9fa5 := by
  have hp := (List.mem_filter.mp h).2
  simp only [Bool.not_eq_true', Bool.or_eq_false_iff, Bool.not_eq_false',
    isCJKChar, Bool.and_eq_true, decide_eq_true_eq] at hp
  exact hp.2

/-- C3: every character of the Normalizer's character-filter output lies in
U+4E00..U+9FA5; in particular it is not an ASCII character (so not an ASCII
letter, digit, punctuation mark or whitespace character). -/
theorem C3_normalizer_output_cjk (s : List Char) (c : Char)
    (h : c ∈ remove_punctuation_and_english s) :
    (0x4e00 ≤ c.toNat ∧ c.toNat ≤ 0x9fa5) ∧ 0x7f < c.toNat := by
  rcases mem_remove_punctuation_and_english h with ⟨h1, h2⟩
  exact ⟨⟨h1, h2⟩, lt_of_lt_of_le (by norm_num) h1⟩

/-- Witness for C3 at the concrete input "这" (U+8FD9). -/
theorem C3_witness :
    (0x4e00 ≤ '这'.toNat ∧ '这'.toNat ≤ 0x9fa5) ∧ 0x7f < '这'.toNat :=
  C3_normalizer_output_cjk ['这'] '这' (by decide)

/-- C9: the Normalizer's character filter is idempotent. -/
theorem C9_normalizer_idempotent (s : List Char) :
    remove_punctuation_and_english (remove_punctuation_and_english s) =
      remove_punctuation_and_english s := by
  simp [remove_punctuation_and_english, List.filter_filter]

/-! ## Frequency Ranker

Source (function `main`):
```
meaningful_words = [word for word in words if word not in stopwords and len(word) > 1]
word_counts = Counter(meaningful_words)
most_common_words = word_counts.most_common(20)
```
`Counter` iterates the list keeping one entry per distinct word, in order of
first occurrence, with its number of occurrences.  `most_common(20)` is
`heapq.nlargest(20, items, key=itemgetter(1))`, i.e. the first 20 entries of a
stable sort of the counter's items by count descending (ties keep the
counter's — first-occurrence — order).  We embed the counter's item list as
`Counter` below and the stable descending sort as `List.insertionSort` with
the total preorder `cntGe`, which is stable in exactly the same sense. -/

/-- The token filter of the list comprehension:
`word not in stopwords and len(word) > 1`. -/
def meaningful_words (stopwords : List String) (words : List String) :
    List String :=
  words.filter (fun w => decide (w ∉ stopwords) && decide (1 < w.length))

/-- The distinct elements of a list in order of first occurrence (the key
order of a Python `Counter` built from the list). -/
def firstOccs : List String → List String
  | [] => []
  | t :: ts => t :: (firstOccs ts).filter (fun w => decide (w ≠ t))

/-- Number of occurrences of `w` in a list. -/
def countW (w : String) : List String → Nat
  | [] => 0
  | t :: ts => (if t = w then 1 else 0) + countW w ts

/-- The item list of `Counter(l)`: one `(word, count)` pair per distinct word
of `l`, in order of first occurrence. -/
def Counter (l : List String) : List (String × Nat) :=
  (firstOccs l).map (fun w => (w, countW w l))

/-- The `key=itemgetter(1)` descending preorder used by `most_common`:
`a` may precede `b` iff `a`'s count is at least `b`'s. -/
def cntGe (a b : String × Nat) : Prop := b.2 ≤ a.2

instance : DecidableRel cntGe := fun a b => Nat.decLe b.2 a.2

instance : IsTotal (String × Nat) cntGe :=
  ⟨fun a b => (Nat.le_total b.2 a.2).imp id id⟩

instance : IsTrans (String × Nat) cntGe :=
  ⟨fun _ _ _ h1 h2 => Nat.le_trans h2 h1⟩

/-- Model of `most_common(n)`: the first `n` entries of a stable descending sort of the
counter's items by count. -/
def most_common (n : Nat) (c : List (String × Nat)) : List (String × Nat) :=
  (List.insertionSort cntGe c).take n

/-- Model of `word_counts = Counter(meaningful_words)`. -/
def word_counts (stopwords tokens : List String) : List (String × Nat) :=
  Counter (meaningful_words stopwords tokens)

/-- Model of `most_common_words = word_counts.most_common(20)`: the Ranked Result. -/
def most_common_words (stopwords tokens : List String) :
    List (String × Nat) :=
  most_common 20 (word_counts stopwords tokens)

/-- C6: the two concrete ranking scenarios of the spec. -/
theorem C6_concrete_scenarios :
    most_common_words [] ["苹果", "香蕉", "苹果", "橙子", "苹果", "香蕉"] =
      [("苹果", 3), ("香蕉", 2), ("橙子", 1)] ∧
    most_common_words ["苹果"] ["苹果", "香蕉", "苹果", "橙子", "苹果", "香蕉"] =
      [("香蕉", 2), ("橙子", 1)] := by
  constructor <;> rfl

/-- C7: an empty token sequence yields an empty Ranked Result, and so does any
token sequence on which the stopword/length filter leaves nothing. -/
theorem C7_empty_inputs (stopwords tokens : List String) :
    most_common_words stopwords [] = [] ∧
      (meaningful_words stopwords tokens = [] →
        most_common_words stopwords tokens = []) := by
  constructor
  · rfl
  · intro h
    simp [most_common_words, word_counts, most_common, h, Counter, firstOccs]

/-- Witness for C7: with an empty stopword set, the single token "a" is
removed by the length filter and the result is empty. -/
theorem C7_witness : most_common_words [] ["a"] = [] :=
  (C7_empty_inputs [] ["a"]).2 (by decide)

/-- C8: the Ranker is deterministic — equal inputs give equal Ranked
Results. -/
theorem C8_deterministic (stopwords₁ stopwords₂ tokens₁ tokens₂ : List String)
    (hs : stopwords₁ = stopwords₂) (ht : tokens₁ = tokens₂) :
    most_common_words stopwords₁ tokens₁ = most_common_words stopwords₂ tokens₂ := by
  rw [hs, ht]

/-- Witness for C8 at a concrete input. -/
theorem C8_witness :
    most_common_words [] ["苹果", "香蕉"] = most_common_words [] ["苹果", "香蕉"] :=
  C8_deterministic [] [] ["苹果", "香蕉"] ["苹果", "香蕉"] rfl rfl

/-! ## Basic properties of `firstOccs`, `countW` and `Counter` -/

theorem mem_firstOccs (l : List String) (w : String) :
    w ∈ firstOccs l ↔ w ∈ l := by
  induction l with
  | nil => simp [firstOccs]
  | cons t ts ih =>
    simp only [firstOccs, List.mem_cons, List.mem_filter, decide_eq_true_eq, ih]
    by_cases h : w = t <;> simp [h]

theorem nodup_firstOccs (l : List String) : (firstOccs l).Nodup := by
  induction l with
  | nil => simp [firstOccs]
  | cons t ts ih =>
    refine List.nodup_cons.mpr ⟨?_, ih.filter _⟩
    intro hmem
    have := (List.mem_filter.mp hmem).2
    simp at this

theorem countW_pos {w : String} {l : List String} (h : w ∈ l) :
    1 ≤ countW w l := by
  induction l with
  | nil => cases h
  | cons t ts ih =>
    rcases List.mem_cons.mp h with h | h
    · subst h; simp [countW]
    · have := ih h
      simp only [countW]
      omega

theorem countW_eq_zero {w : String} {l : List String} (h : w ∉ l) :
    countW w l = 0 := by
  induction l with
  | nil => rfl
  | cons t ts ih =>
    have ht : t ≠ w := fun e => h (e ▸ List.mem_cons_self t ts)
    have := ih fun hm => h (List.mem_cons_of_mem _ hm)
    simp only [countW, if_neg ht]
    omega

theorem mem_Counter {p : String × Nat} {l : List String} (h : p ∈ Counter l) :
    p.1 ∈ l ∧ p.2 = countW p.1 l := by
  rcases List.mem_map.mp h with ⟨w, hw, hp⟩
  rcases hp with rfl
  exact ⟨(mem_firstOccs l w).mp hw, rfl⟩

/-! ## C2: every ranked word passed the stopword/length filter -/

theorem mem_meaningful_words {stopwords tokens : List String} {w : String}
    (h : w ∈ meaningful_words stopwords tokens) :
    w ∈ tokens ∧ w ∉ stopwords ∧ 1 < w.length := by
  have hf := List.mem_filter.mp h
  have hb := hf.2
  simp only [Bool.and_eq_true, decide_eq_true_eq] at hb
  exact ⟨hf.1, hb.1, hb.2⟩

theorem mem_most_common_words {stopwords tokens : List String}
    {p : String × Nat} (h : p ∈ most_common_words stopwords tokens) :
    p ∈ word_counts stopwords tokens := by
  have h1 : p ∈ List.insertionSort cntGe (word_counts stopwords tokens) :=
    List.take_subset _ _ h
  exact (List.mem_insertionSort cntGe).mp h1

/-- C2: every Frequency Record of the Ranked Result has a word outside the
stopword set of character length strictly greater than one. -/
theorem C2_record_word_filtered (stopwords tokens : List String)
    (w : String) (c : Nat) (h : (w, c) ∈ most_common_words stopwords tokens) :
    w ∉ stopwords ∧ 1 < w.length := by
  have h2 := mem_most_common_words h
  have h3 := mem_Counter h2
  have h4 := mem_meaningful_words h3.1
  exact ⟨h4.2.1, h4.2.2⟩

/-- Witness for C2: the record ("苹果", 2) produced from two "苹果" tokens with
stopword set containing only "的". -/
theorem C2_witness : "苹果" ∉ ["的"] ∧ 1 < "苹果".length :=
  C2_record_word_filtered ["的"] ["苹果", "苹果"] "苹果" 2 (by decide)

/-! ## C10: filter is a subsequence; counts are positive and sum to the
number of surviving tokens -/

theorem partition_sum (L : List String) (f : String → Nat) (t : String) :
    ((L.filter (fun w => decide (w ≠ t))).map f).sum +
      ((L.filter (fun w => decide (w = t))).map f).sum = (L.map f).sum := by
  induction L with
  | nil => rfl
  | cons a L ih =>
    simp only [List.filter_cons]
    by_cases h : a = t
    · subst h
      rw [if_neg (by simp), if_pos (by simp)]
      simp only [List.map_cons, List.sum_cons]
      omega
    · rw [if_pos (by simp [h]), if_neg (by simp [h])]
      simp only [List.map_cons, List.sum_cons]
      omega

theorem filter_eq_nil_of_not_mem {L : List String} {t : String} (h : t ∉ L) :
    L.filter (fun w => decide (w = t)) = [] := by
  induction L with
  | nil => rfl
  | cons a L ih =>
    have ha : a ≠ t := fun e => h (e ▸ List.mem_cons_self a L)
    simp only [List.filter_cons]
    rw [if_neg (by simp [ha])]
    exact ih fun hm => h (List.mem_cons_of_mem _ hm)

theorem filter_eq_singleton {L : List String} {t : String} (hnd : L.Nodup)
    (hm : t ∈ L) : L.filter (fun w => decide (w = t)) = [t] := by
  induction L with
  | nil => cases hm
  | cons a L ih =>
    rcases List.nodup_cons.mp hnd with ⟨hna, hndL⟩
    rcases List.mem_cons.mp hm with h | h
    · subst h
      simp only [List.filter_cons]
      rw [if_pos (by simp), filter_eq_nil_of_not_mem hna]
    · have ha : a ≠ t := by rintro rfl; exact hna h
      simp only [List.filter_cons]
      rw [if_neg (by simp [ha])]
      exact ih hndL h

theorem sum_counts : ∀ l : List String,
    ((firstOccs l).map (fun w => countW w l)).sum = l.length
  | [] => rfl
  | t :: ts => by
    have IH := sum_counts ts
    have hpart := partition_sum (firstOccs ts) (fun w => countW w ts) t
    have hcw : countW t (t :: ts) = 1 + countW t ts := by simp [countW]
    have hmap :
        ((firstOccs ts).filter (fun w => decide (w ≠ t))).map
            (fun w => countW w (t :: ts)) =
          ((firstOccs ts).filter (fun w => decide (w ≠ t))).map
            (fun w => countW w ts) := by
      apply List.map_congr_left
      intro w hw
      have hne : w ≠ t := by
        have := (List.mem_filter.mp hw).2
        simpa using this
      simp [countW, Ne.symm hne]
    simp only [firstOccs, List.map_cons, List.sum_cons, List.length_cons]
    rw [hcw, hmap]
    by_cases hmem : t ∈ ts
    · have hfil : (firstOccs ts).filter (fun w => decide (w = t)) = [t] :=
        filter_eq_singleton (nodup_firstOccs ts) ((mem_firstOccs ts t).mpr hmem)
      rw [hfil] at hpart
      simp only [List.map_cons, List.map_nil, List.sum_cons, List.sum_nil] at hpart
      omega
    · have hfil : (firstOccs ts).filter (fun w => decide (w = t)) = [] :=
        filter_eq_nil_of_not_mem
          (fun hm => hmem ((mem_firstOccs ts t).mp hm))
      rw [hfil] at hpart
      simp only [List.map_nil, List.sum_nil] at hpart
      have hz : countW t ts = 0 := countW_eq_zero hmem
      omega

/-- C10: the surviving tokens form a subsequence of the input; every count of
the full count mapping is at least 1; the counts sum to the number of
surviving tokens. -/
theorem C10_filter_and_counts (stopwords tokens : List String) :
    List.Sublist (meaningful_words stopwords tokens) tokens ∧
      (∀ p ∈ word_counts stopwords tokens, 1 ≤ p.2) ∧
      ((word_counts stopwords tokens).map Prod.snd).sum =
        (meaningful_words stopwords tokens).length := by
  refine ⟨List.filter_sublist _, ?_, ?_⟩
  · intro p hp
    rcases mem_Counter hp with ⟨hmem, hc⟩
    rw [hc]
    exact countW_pos hmem
  · have := sum_counts (meaningful_words stopwords tokens)
    simpa [word_counts, Counter, List.map_map, Function.comp] using this

/-- Witness for C10 at a concrete input: the count of "苹果" is positive. -/
theorem C10_witness : 1 ≤ (("苹果", 3) : String × Nat).2 :=
  (C10_filter_and_counts [] ["苹果", "香蕉", "苹果", "橙子", "苹果", "香蕉"]).2.1
    ("苹果", 3) (by decide)

/-! ## C1: shape of the Ranked Result

The Ranked Result is the first 20 entries of a stable descending sort (by
count) of the counter's items, which are themselves in first-occurrence
order.  We show: length at most 20, counts non-increasing, and adjacent ties
ordered by first occurrence in the original token sequence. -/

/-- Index of the first occurrence of `w` in a list (list length if absent). -/
def firstIdx (w : String) : List String → Nat
  | [] => 0
  | t :: ts => if t = w then 0 else firstIdx w ts + 1

theorem pairwise_firstIdx (l : List String) :
    List.Pairwise (fun w v => firstIdx w l < firstIdx v l) (firstOccs l) := by
  induction l with
  | nil => simp [firstOccs]
  | cons t ts ih =>
    refine List.Pairwise.cons ?_ ?_
    · intro v hv
      have hvne : v ≠ t := by simpa using (List.mem_filter.mp hv).2
      simp [firstIdx, Ne.symm hvne]
    · have hsub : List.Sublist
          ((firstOccs ts).filter (fun w => decide (w ≠ t))) (firstOccs ts) :=
        List.filter_sublist _
      have hpw := List.Pairwise.sublist hsub ih
      refine List.Pairwise.imp_of_mem ?_ hpw
      intro a b ha hb hab
      have hane : a ≠ t := by simpa using (List.mem_filter.mp ha).2
      have hbne : b ≠ t := by simpa using (List.mem_filter.mp hb).2
      simp only [firstIdx, if_neg (Ne.symm hane), if_neg (Ne.symm hbne)]
      omega

theorem firstIdx_filter_lt (p : String → Bool) (l : List String) :
    ∀ {w v : String}, w ∈ l.filter p → v ∈ l.filter p →
      firstIdx w (l.filter p) < firstIdx v (l.filter p) →
      firstIdx w l < firstIdx v l := by
  induction l with
  | nil => intro w v hw _ _; simp at hw
  | cons t ts ih =>
    intro w v hw hv hlt
    by_cases hpt : p t
    · rw [List.filter_cons_of_pos hpt] at hw hv hlt
      by_cases hwt : w = t
      · subst hwt
        have hvw : v ≠ w := by
          rintro rfl
          simp [firstIdx] at hlt
        simp [firstIdx, Ne.symm hvw]
      · have hvt : v ≠ t := by
          rintro rfl
          rw [show firstIdx v (v :: ts.filter p) = 0 by simp [firstIdx]] at hlt
          omega
        have hw' : w ∈ ts.filter p :=
          (List.mem_cons.mp hw).resolve_left hwt
        have hv' : v ∈ ts.filter p :=
          (List.mem_cons.mp hv).resolve_left hvt
        have hlt' : firstIdx w (ts.filter p) < firstIdx v (ts.filter p) := by
          rw [show firstIdx w (t :: ts.filter p) = firstIdx w (ts.filter p) + 1
                by simp [firstIdx, Ne.symm hwt],
              show firstIdx v (t :: ts.filter p) = firstIdx v (ts.filter p) + 1
                by simp [firstIdx, Ne.symm hvt]] at hlt
          omega
        have := ih hw' hv' hlt'
        simp only [firstIdx, if_neg (Ne.symm hwt), if_neg (Ne.symm hvt)]
        omega
    · rw [List.filter_cons_of_neg hpt] at hw hv hlt
      have hwt : w ≠ t := fun h => hpt (h ▸ (List.mem_filter.mp hw).2)
      have hvt : v ≠ t := fun h => hpt (h ▸ (List.mem_filter.mp hv).2)
      have := ih hw hv hlt
      simp only [firstIdx, if_neg (Ne.symm hwt), if_neg (Ne.symm hvt)]
      omega

theorem pairwise_firstIdx_word_counts (stopwords tokens : List String) :
    List.Pairwise
      (fun p q : String × Nat => firstIdx p.1 tokens < firstIdx q.1 tokens)
      (word_counts stopwords tokens) := by
  have base := pairwise_firstIdx (meaningful_words stopwords tokens)
  have base' : List.Pairwise (fun w v => firstIdx w tokens < firstIdx v tokens)
      (firstOccs (meaningful_words stopwords tokens)) := by
    refine List.Pairwise.imp_of_mem ?_ base
    intro a b ha hb hab
    exact firstIdx_filter_lt _ tokens
      ((mem_firstOccs _ a).mp ha) ((mem_firstOccs _ b).mp hb) hab
  exact List.pairwise_map.mpr base'

/-! Stability of the stable descending sort, stated through filters by a
fixed count value `k`: elements whose count differs from the inserted one's
are passed over only when their count is strictly larger, so the inserted
element lands before every element of equal count that followed it. -/

theorem filter_orderedInsert_pos (k : Nat) (x : String × Nat) (hx : x.2 = k) :
    ∀ l : List (String × Nat),
      (List.orderedInsert cntGe x l).filter (fun q => decide (q.2 = k)) =
        x :: l.filter (fun q => decide (q.2 = k))
  | [] => by simp [List.orderedInsert, hx]
  | y :: ys => by
    by_cases h : cntGe x y
    · rw [List.orderedInsert, if_pos h, List.filter_cons, if_pos (by simp [hx])]
    · have hy : ¬(y.2 = k) := fun hk => h (by unfold cntGe; omega)
      rw [List.orderedInsert, if_neg h, List.filter_cons,
        if_neg (by simp [hy]), filter_orderedInsert_pos k x hx ys,
        List.filter_cons, if_neg (by simp [hy])]

theorem filter_orderedInsert_neg (k : Nat) (x : String × Nat) (hx : ¬(x.2 = k)) :
    ∀ l : List (String × Nat),
      (List.orderedInsert cntGe x l).filter (fun q => decide (q.2 = k)) =
        l.filter (fun q => decide (q.2 = k))
  | [] => by simp [List.orderedInsert, hx]
  | y :: ys => by
    by_cases h : cntGe x y
    · rw [List.orderedInsert, if_pos h, List.filter_cons, if_neg (by simp [hx])]
    · rw [List.orderedInsert, if_neg h, List.filter_cons,
        filter_orderedInsert_neg k x hx ys, List.filter_cons]

theorem filter_insertionSort (k : Nat) :
    ∀ c : List (String × Nat),
      (List.insertionSort cntGe c).filter (fun q => decide (q.2 = k)) =
        c.filter (fun q => decide (q.2 = k))
  | [] => rfl
  | x :: c => by
    rw [List.insertionSort]
    by_cases hx : x.2 = k
    · rw [filter_orderedInsert_pos k x hx, filter_insertionSort k c,
        List.filter_cons, if_pos (by simp [hx])]
    · rw [filter_orderedInsert_neg k x hx, filter_insertionSort k c,
        List.filter_cons, if_neg (by simp [hx])]

theorem chain'_of_adj {α : Type} (R : α → α → Prop) :
    ∀ l : List α, (∀ u a b v, l = u ++ a :: b :: v → R a b) → List.Chain' R l
  | [], _ => List.chain'_nil
  | [_], _ => List.chain'_singleton _
  | a :: b :: t, h => by
    refine List.chain'_cons.mpr ⟨h [] a b t rfl, ?_⟩
    refine chain'_of_adj R (b :: t) ?_
    intro u a' b' v hv
    exact h (a :: u) a' b' v (by rw [List.cons_append, hv])

/-- Two adjacent entries of equal count in the sorted list occur, in that
order, in the unsorted counter list. -/
theorem ties_sublist (c : List (String × Nat)) (u v : List (String × Nat))
    (a b : String × Nat) (hab : a.2 = b.2)
    (hdecomp : List.insertionSort cntGe c = u ++ a :: b :: v) :
    List.Sublist [a, b] c := by
  have hfil := filter_insertionSort a.2 c
  rw [hdecomp, List.filter_append, List.filter_cons, if_pos (by simp),
    List.filter_cons, if_pos (by simp [hab])] at hfil
  have hsub1 : List.Sublist [a, b]
      (u.filter (fun q => decide (q.2 = a.2)) ++
        a :: b :: v.filter (fun q => decide (q.2 = a.2))) :=
    List.Sublist.trans
      (List.Sublist.cons₂ a (List.Sublist.cons₂ b (List.nil_sublist _)))
      (List.sublist_append_right _ _)
  rw [hfil] at hsub1
  exact hsub1.trans (List.filter_sublist _)

/-- C1: the Ranked Result has length at most 20, its counts are
non-increasing, and any two adjacent records of equal count are ordered by
the first occurrence of their words in the original token sequence. -/
theorem C1_ranked_result_shape (stopwords tokens : List String) :
    (most_common_words stopwords tokens).length ≤ 20 ∧
      List.Chain' (fun a b : String × Nat => b.2 ≤ a.2)
        (most_common_words stopwords tokens) ∧
      List.Chain' (fun a b : String × Nat =>
          a.2 = b.2 → firstIdx a.1 tokens < firstIdx b.1 tokens)
        (most_common_words stopwords tokens) := by
  refine ⟨?_, ?_, ?_⟩
  · have h := List.length_take 20
      (List.insertionSort cntGe (word_counts stopwords tokens))
    simp only [most_common_words, most_common, h]
    omega
  · have hs : List.Sorted cntGe
        (List.insertionSort cntGe (word_counts stopwords tokens)) :=
      List.sorted_insertionSort cntGe _
    exact List.Chain'.take (List.Pairwise.chain' hs) 20
  · have hpw := pairwise_firstIdx_word_counts stopwords tokens
    have hch : List.Chain' (fun a b : String × Nat =>
        a.2 = b.2 → firstIdx a.1 tokens < firstIdx b.1 tokens)
        (List.insertionSort cntGe (word_counts stopwords tokens)) := by
      apply chain'_of_adj
      intro u a b v hdecomp hab
      have hsub := ties_sublist _ u v a b hab hdecomp
      have hab' := List.Pairwise.sublist hsub hpw
      exact (List.pairwise_cons.mp hab').1 b (List.mem_cons_self b [])
    exact List.Chain'.take hch 20

/-! ## Fetcher and `main` control flow

`fetch_content` performs `requests.get` and `response.raise_for_status()`.
The network is modelled as an oracle `net : String → Option Response`
(`none` = the connection cannot be established, in which case `requests.get`
raises a `ConnectionError`).  `raise_for_status` raises an `HTTPError`
exactly when `400 ≤ status < 600`; both exceptions are `RequestException`s
(the spec's NetworkError).  `main` validates the URL, then requires the
stopword file, then runs fetch → strip tags → character filter →
segmentation (external `jieba.lcut`, modelled as a parameter) → filter →
count → rank inside a try block whose except-clause reports the error to the
user.  The second component of the result records which pipeline phases ran,
in order. -/

structure Response where
  status : Nat
  body : List Char
deriving DecidableEq

inductive FetchError where
  | connectionError : FetchError
  | httpError : Nat → FetchError
deriving DecidableEq

/-- Model of `fetch_content(url)`: GET the page, raise for a 4xx/5xx status, return
the decoded body. -/
def fetch_content (net : String → Option Response) (url : String) :
    Except FetchError (List Char) :=
  match net url with
  | none => Except.error FetchError.connectionError
  | some r =>
    if 400 ≤ r.status ∧ r.status < 600 then
      Except.error (FetchError.httpError r.status)
    else Except.ok r.body

/-- Helper of `remove_html_tags`: position just after the first `'>'`, if any
(`re` scans for the closing bracket of `<[^>]+>`; the class `[^>]+` can never
step over a `'>'`, so the match always closes at the first one). -/
def closeTag : List Char → Option (List Char)
  | [] => none
  | c :: cs => if c = '>' then some cs else closeTag cs

theorem closeTag_length : ∀ {l r : List Char},
    closeTag l = some r → r.length < l.length := by
  intro l
  induction l with
  | nil => intro r h; simp [closeTag] at h
  | cons c cs ih =>
    intro r h
    rw [closeTag] at h
    by_cases hc : c = '>'
    · rw [if_pos hc] at h
      cases h
      simp
    · rw [if_neg hc] at h
      have := ih h
      simp only [List.length_cons]
      omega

/-- Model of `remove_html_tags(html)`, i.e. of `re.sub(r'<[^>]+>', '', html)`.  A match starts
at a `'<'`, needs at least one following non-`'>'` character, and ends at the
first `'>'`; unmatched text (including a lone `"<>"` or an unclosed `'<'`) is
kept, and scanning resumes after each match. -/
def remove_html_tags (l : List Char) : List Char :=
  match l with
  | [] => []
  | c :: cs =>
    if c = '<' then
      match cs with
      | [] => ['<']
      | d :: ds =>
        if d = '>' then '<' :: remove_html_tags (d :: ds)
        else
          match h : closeTag (d :: ds) with
          | some rest => remove_html_tags rest
          | none => '<' :: remove_html_tags (d :: ds)
    else c :: remove_html_tags cs
termination_by l.length
decreasing_by
  · simp only [List.length_cons]; omega
  · have := closeTag_length h
    simp only [List.length_cons] at this ⊢
    omega
  · simp only [List.length_cons]; omega
  · simp only [List.length_cons]; omega

inductive Event where
  | fetchEv : Event
  | normalizeEv : Event
  | segmentEv : Event
  | rankEv : Event
deriving DecidableEq

inductive Outcome where
  | invalidInput : String → Outcome
  | errorCaught : FetchError → Outcome
  | success : List Char → List (String × Nat) → List (String × Nat) → Outcome
deriving DecidableEq

/-- The body of `main` behind the "fetch and analyse" button: URL validation
(`validators.url`, external, modelled as a parameter), stopword-file check,
then the try block running the pipeline; a raised fetch error is caught by
the except clause and reported (`st.error`).  The event list records which
phases ran. -/
def mainRun (validUrl : String → Bool) (net : String → Option Response)
    (segment : List Char → List String) (url : String)
    (stopwords_file : Option (List String)) : Outcome × List Event :=
  if !validUrl url then (Outcome.invalidInput "请输入有效的 URL!", [])
  else
    match stopwords_file with
    | none => (Outcome.invalidInput "请上传停用词文件!", [])
    | some stopwords =>
      match fetch_content net url with
      | Except.error e => (Outcome.errorCaught e, [Event.fetchEv])
      | Except.ok html =>
        let clean_text := remove_punctuation_and_english (remove_html_tags html)
        let words := segment clean_text
        let wc := Counter (meaningful_words stopwords words)
        (Outcome.success clean_text (most_common 20 wc) wc,
          [Event.fetchEv, Event.normalizeEv, Event.segmentEv, Event.rankEv])

/-- C5: on a malformed URL or a missing stopword list, `main` reports invalid
input; no pipeline phase runs (empty event trace) and the result does not
depend on the network at all. -/
theorem C5_invalid_input_before_network (validUrl : String → Bool)
    (net : String → Option Response) (segment : List Char → List String)
    (url : String) (stopwords_file : Option (List String))
    (h : validUrl url = false ∨ stopwords_file = none) :
    ∃ msg, mainRun validUrl net segment url stopwords_file =
        (Outcome.invalidInput msg, []) ∧
      ∀ net', mainRun validUrl net' segment url stopwords_file =
        mainRun validUrl net segment url stopwords_file := by
  rcases h with h | h
  · exact ⟨"请输入有效的 URL!", by simp [mainRun, h], fun net' => by simp [mainRun, h]⟩
  · subst h
    cases hv : validUrl url
    · exact ⟨"请输入有效的 URL!", by simp [mainRun, hv], fun net' => by simp [mainRun, hv]⟩
    · exact ⟨"请上传停用词文件!", by simp [mainRun, hv], fun net' => by simp [mainRun, hv]⟩

/-- Witness for C5 at a concrete input with a missing stopword file. -/
theorem C5_witness :
    ∃ msg, mainRun (fun _ => true) (fun _ => none) (fun _ => []) "http://e" none =
        (Outcome.invalidInput msg, []) ∧
      ∀ net', mainRun (fun _ => true) net' (fun _ => []) "http://e" none =
        mainRun (fun _ => true) (fun _ => none) (fun _ => []) "http://e" none :=
  C5_invalid_input_before_network (fun _ => true) (fun _ => none) (fun _ => [])
    "http://e" none (Or.inr rfl)

/-- C4 (amended): when the connection fails or the HTTP status is 4xx/5xx
(e.g. 404), the fetch raises, the error surfaces to the interactive layer,
only the fetch phase ran (normalization never started), and no Frequency
Records are produced. -/
theorem C4_network_error_aborts (validUrl : String → Bool)
    (net : String → Option Response) (segment : List Char → List String)
    (url : String) (stopwords : List String) (hv : validUrl url = true)
    (hf : net url = none ∨
      ∃ r, net url = some r ∧ 400 ≤ r.status ∧ r.status < 600) :
    ∃ e, mainRun validUrl net segment url (some stopwords) =
      (Outcome.errorCaught e, [Event.fetchEv]) := by
  rcases hf with h | ⟨r, hr, hs⟩
  · exact ⟨FetchError.connectionError, by simp [mainRun, hv, fetch_content, h]⟩
  · exact ⟨FetchError.httpError r.status,
      by simp [mainRun, hv, fetch_content, hr, hs]⟩

/-- Witness for C4 (amended) at a concrete 404 response. -/
theorem C4_witness :
    ∃ e, mainRun (fun _ => true) (fun _ => some ⟨404, []⟩) (fun _ => [])
        "http://e" (some []) = (Outcome.errorCaught e, [Event.fetchEv]) :=
  C4_network_error_aborts (fun _ => true) (fun _ => some ⟨404, []⟩) (fun _ => [])
    "http://e" [] rfl (Or.inr ⟨⟨404, []⟩, rfl, by decide⟩)

/-- Counterexample to C4 as stated: a non-2xx status that is not 4xx/5xx.
`raise_for_status` raises only for `400 ≤ status < 600`, so on a 304 response
no NetworkError is raised: the pipeline runs to completion and even produces
Frequency Records. -/
theorem C4_counterexample :
    mainRun (fun _ => true) (fun _ => some ⟨304, ['这']⟩)
        (fun _ => ["苹果", "苹果"]) "http://e" (some []) =
      (Outcome.success ['这'] [("苹果", 2)] [("苹果", 2)],
        [Event.fetchEv, Event.normalizeEv, Event.segmentEv, Event.rankEv]) ∧
      ¬(200 ≤ 304 ∧ 304 ≤ 299) := by
  refine ⟨?_, by omega⟩
  have h0 : remove_html_tags [] = [] := by
    unfold remove_html_tags
    rfl
  have h1 : remove_html_tags ['这'] = ['这'] := by
    unfold remove_html_tags
    rw [if_neg (by decide), h0]
  simp [mainRun, fetch_content, h1]
  exact ⟨rfl, rfl, rfl⟩

end App4
